import Mathlib

set_option maxRecDepth 4000

/- Shallow embedding of src/clustering.cpp (product-quantization codebook
training).  The C float/double values (coord_t, dist_t) are modelled as exact
rationals; flat row-major buffers are modelled as functions from indices to
values, and in-place writes as function updates.  The external collaborators
declared in transform.h / embedding.h (rand_perm, RandomGenerator::rand_float,
hnsw_dist_func, PCAMatrix) are not part of the given source; following spec.md
section 6 they are passed in as explicit parameters (a realization of each
contract), constrained by contract hypotheses where a theorem needs them.
Rational division by zero is 0 in Lean; the places where the C code would
produce inf or NaN instead are noted at the definitions concerned. -/

/-- Constant from clustering.cpp line 20. -/
def min_points_per_centroid : ℕ := 39

/-- Constant from clustering.cpp line 21. -/
def max_points_per_centroid : ℕ := 256

/-- Constant from clustering.cpp line 22 (the fixed, non-time-based seed). -/
def seed : ℕ := 1234

/-- Constant from clustering.cpp line 23. -/
def max_iterations : ℕ := 25

/-- Constant from clustering.cpp line 24 (0.0001). -/
def min_improvement : ℚ := 1 / 10000

/-- The EPS constant of clustering.cpp line 116: 1/1024. -/
def EPS : ℚ := 1 / 1024

/-- The TrainType enum of clustering.cpp lines 26-30.  In the source the
selector is the process-wide mutable global `trainType`; here it is passed to
pq_train as an explicit argument carrying that global's value at call time. -/
inductive TrainType
  | TT_DEFAULT
  | TT_HYPERCUBE
  | TT_HYPERCUBE_PCA

/-- The fields of HnswMetadata that clustering.cpp reads: pqSubdim (vector
dimension d) and pqBits (so k = 2 ^ pqBits).  The metric selector dist_func
is folded into the distance-function collaborator below. -/
structure HnswMetadata where
  pqSubdim : ℕ
  pqBits : ℕ

/-- Modelled from the spec: the external collaborators of spec.md section 6,
whose code (transform.h / embedding.h) is not under src/.  Each field is one
deterministic realization: permSub is the permutation rand_perm produces for
the subsampler's seed, permInit the one for seed + 1 used by the random-sample
centroid initialization, rngs the rand_float stream of RandomGenerator(seed)
used by split_clusters (t-th draw, values in [0,1) per the contract), distf
the hnsw_dist_func metric for the metadata's selector (given the dimension and
the two vectors), and pcaMean / pcaSqrtEig / pcaMat the outputs of the PCA
decomposition (sqrt of the eigenvalues is taken as given, ℚ lacking sqrt). -/
structure Collab where
  permSub : ℕ → ℕ
  permInit : ℕ → ℕ
  rngs : ℕ → ℚ
  distf : ℕ → (ℕ → ℚ) → (ℕ → ℚ) → ℚ
  pcaMean : ℕ → ℚ
  pcaSqrtEig : ℕ → ℚ
  pcaMat : ℕ → ℚ

/-- Modelled from the spec: a realization of hnsw_dist_func, the squared
Euclidean metric on the first d coordinates. -/
def sqdist (d : ℕ) (u v : ℕ → ℚ) : ℚ := ∑ j ∈ Finset.range d, (u j - v j) ^ 2

/-- Modelled from the spec: a realization of hnsw_dist_func, the Manhattan
metric on the first d coordinates. -/
def l1dist (d : ℕ) (u v : ℕ → ℚ) : ℚ := ∑ j ∈ Finset.range d, |u j - v j|

/-- subsample_training_set (clustering.cpp lines 34-51): returns the new size
k * max_points_per_centroid and the new buffer whose i-th row is row perm[i]
of the input (the memcpy at line 48).  perm is the rand_perm(nx, seed)
realization.  The original buffer x is a read-only argument, never updated. -/
def subsample_training_set (d k nx : ℕ) (x : ℕ → ℕ → ℚ) (perm : ℕ → ℕ) :
    ℕ × (ℕ → ℕ → ℚ) :=
  (k * max_points_per_centroid, fun i j => x (perm i) j)

/-- The histogram accumulation of compute_centroids (clustering.cpp lines
85-98): after the loop over the first n training vectors, hassign[ci] has been
incremented once for every i with assign[i] = ci (starting from 0). -/
def hassignAcc (a : ℕ → ℕ) : ℕ → ℕ → ℚ
  | 0, _ => 0
  | n + 1, ci => hassignAcc a n ci + (if a n = ci then 1 else 0)

/-- The centroid-sum accumulation of compute_centroids (clustering.cpp lines
85-98): starting from the zeroed table (memset at line 71), coordinate j of
row ci accumulates x[i][j] for every i with assign[i] = ci. -/
def centroidsAcc (x : ℕ → ℕ → ℚ) (a : ℕ → ℕ) : ℕ → ℕ → ℕ → ℚ
  | 0, _, _ => 0
  | n + 1, ci, j => centroidsAcc x a n ci j + (if a n = ci then x n j else 0)

/-- compute_centroids (clustering.cpp lines 62-113): zero the table, accumulate
sums and the histogram over the n training vectors, then multiply each row
with nonzero count by norm = 1 / hassign[ci] (rows with count 0 are skipped
and stay as accumulated, i.e. zero).  Returns (hassign, centroids). -/
def compute_centroids (d k n : ℕ) (x : ℕ → ℕ → ℚ) (assign : ℕ → ℕ) :
    (ℕ → ℚ) × (ℕ → ℕ → ℚ) :=
  (hassignAcc assign n,
   fun ci j =>
     if hassignAcc assign n ci = 0 then centroidsAcc x assign n ci j
     else (1 / hassignAcc assign n ci) * centroidsAcc x assign n ci j)

/-- The donor-acceptance loop of split_clusters (clustering.cpp lines 139-146):
starting at candidate cj and stream position t, accept cj as soon as the draw
rngs t falls strictly below p = (hassign[cj] - 1) / (n - k), else move to
(cj + 1) % k consuming one draw.  The C loop is unbounded; fuel bounds the
number of trials modelled, and none stands for not having accepted within
fuel trials (the C code would still be looping).  n - k is the size_t
subtraction, modelled as truncated ℕ subtraction (they agree for n ≥ k; for
n = k the C float division by zero gives ±inf or NaN where ℚ gives p = 0,
in both cases no donor with hassign ≤ 1 is ever accepted). -/
def findDonor (k n : ℕ) (h : ℕ → ℚ) (rngs : ℕ → ℚ) :
    ℕ → ℕ → ℕ → Option (ℕ × ℕ)
  | _, _, 0 => none
  | t, cj, fuel + 1 =>
    if rngs t < (h cj - 1) / ((n - k : ℕ) : ℚ) then some (cj, t + 1)
    else findDonor k n h rngs (t + 1) ((cj + 1) % k) fuel

/-- State threaded through the ci-loop of split_clusters: the histogram and
centroid table being mutated in place, the rand_float stream position of the
local RandomGenerator(seed), and the running nsplit counter. -/
structure SplitState where
  hassign : ℕ → ℚ
  cent : ℕ → ℕ → ℚ
  t : ℕ
  nsplit : ℕ

/-- The ci-loop of split_clusters (clustering.cpp lines 136-167) over the
remaining centroid indices.  For an empty centroid (hassign[ci] = 0) a donor
cj is sought; then row ci becomes a copy of row cj (memcpy line 147), the
symmetric perturbation multiplies coordinate j of row ci by 1 ± EPS and of
row cj by 1 ∓ EPS in the even/odd pattern of lines 152-160 (both factors
apply to the same cell if ci = cj, matching the sequential *= writes), and
the bookkeeping population is split: hassign[ci] = hassign[cj] / 2 then
hassign[cj] -= hassign[ci], reading the table left by the first write. -/
def splitLoop (k n : ℕ) (rngs : ℕ → ℚ) (fuel : ℕ) :
    List ℕ → SplitState → Option SplitState
  | [], st => some st
  | ci :: rest, st =>
    if st.hassign ci = 0 then
      match findDonor k n st.hassign rngs st.t 0 fuel with
      | none => none
      | some (cj, t') =>
        let c1 := Function.update st.cent ci (st.cent cj)
        let c2 : ℕ → ℕ → ℚ := fun a j =>
          c1 a j * (if a = ci then (if j % 2 = 0 then 1 + EPS else 1 - EPS) else 1)
                 * (if a = cj then (if j % 2 = 0 then 1 - EPS else 1 + EPS) else 1)
        let h1 := Function.update st.hassign ci (st.hassign cj / 2)
        let h2 := Function.update h1 cj (h1 cj - h1 ci)
        splitLoop k n rngs fuel rest ⟨h2, c2, t', st.nsplit + 1⟩
    else splitLoop k n rngs fuel rest st

/-- split_clusters (clustering.cpp lines 125-170): walk ci over [0, k) with a
fresh RandomGenerator(seed) stream, repairing every empty centroid; returns
(hassign, centroids, nsplit), or none when some donor search did not accept
within the modelled fuel (the C loop would not have returned yet). -/
def split_clusters (d k n : ℕ) (hassign : ℕ → ℚ) (centroids : ℕ → ℕ → ℚ)
    (rngs : ℕ → ℚ) (fuel : ℕ) : Option ((ℕ → ℚ) × (ℕ → ℕ → ℚ) × ℕ) :=
  (splitLoop k n rngs fuel (List.range k) ⟨hassign, centroids, 0, 0⟩).map
    fun st => (st.hassign, st.cent, st.nsplit)

/-- The inner j-loop of calculate_distances (clustering.cpp lines 186-195)
after the first j0 centroids: running minimum distance (none standing for the
initial HUGE_VALF, which every rational distance is below) and its index
(initially 0), updated on a strict decrease, so ties keep the earliest
centroid. -/
def nearestAux (distf : ℕ → (ℕ → ℚ) → (ℕ → ℚ) → ℚ) (d : ℕ) (xi : ℕ → ℚ)
    (c : ℕ → ℕ → ℚ) : ℕ → Option ℚ × ℕ
  | 0 => (none, 0)
  | j + 1 =>
    let r := nearestAux distf d xi c j
    let ip := distf d xi (c j)
    match r.1 with
    | none => (some ip, j)
    | some m => if ip < m then (some ip, j) else r

/-- calculate_distances (clustering.cpp lines 175-199): for training vector i,
the pair (dis[i], assign[i]) of nearest-centroid distance and index over the
k centroid rows. -/
def calculate_distances (distf : ℕ → (ℕ → ℚ) → (ℕ → ℚ) → ℚ) (d k : ℕ)
    (x : ℕ → ℕ → ℚ) (c : ℕ → ℕ → ℚ) : ℕ → Option ℚ × ℕ :=
  fun i => nearestAux distf d (x i) c k

/-- The objective accumulation of pq_train (clustering.cpp lines 311-314):
the sum of dis[j] over the nx training vectors. -/
def objective (nx : ℕ) (da : ℕ → Option ℚ × ℕ) : ℚ :=
  ∑ i ∈ Finset.range nx, ((da i).1).getD 0

/-- The coordinate-wise mean of init_hypercube (clustering.cpp lines 208-219):
sum over the n training vectors then divide by n (for n = 0 the C code would
produce NaN where ℚ gives 0; pq_train never passes n = 0 to it under the
guards of any theorem below). -/
def hyperMean (n : ℕ) (x : ℕ → ℕ → ℚ) : ℕ → ℚ :=
  fun j => (∑ i ∈ Finset.range n, x i j) / (n : ℚ)

/-- The running maximum absolute mean component of init_hypercube
(clustering.cpp lines 214-219), folded over the first d coordinates. -/
def hyperMaxm (mean : ℕ → ℚ) : ℕ → ℚ
  | 0 => 0
  | j + 1 => max (hyperMaxm mean j) |mean j|

/-- init_hypercube (clustering.cpp lines 201-228): centroid i has coordinate
j < nbits at mean[j] ± maxm with the sign given by bit j of i, and coordinate
j ≥ nbits at mean[j]. -/
def init_hypercube (d nbits n : ℕ) (x : ℕ → ℕ → ℚ) : ℕ → ℕ → ℚ :=
  fun i j =>
    if j < nbits then
      hyperMean n x j + (if (i >>> j) &&& 1 = 1 then 1 else -1) * hyperMaxm (hyperMean n x) d
    else hyperMean n x j

/-- init_hypercube_pca (clustering.cpp lines 230-251), over the PCA
collaborator's outputs: centroid i has coordinate j at pca.mean[j] plus the
signed sum over the nbits retained components of sqrt(eigenvalue) * PCAMat
(the f factor of the source stays 1.0 throughout). -/
def init_hypercube_pca (d nbits : ℕ) (pmean psqrtEig pmat : ℕ → ℚ) :
    ℕ → ℕ → ℚ :=
  fun i j =>
    pmean j + ∑ t ∈ Finset.range nbits,
      psqrtEig t * (if (i >>> t) &&& 1 = 1 then 1 else -1) * pmat (j + t * d)

/-- The k-means iteration loop of pq_train (clustering.cpp lines 305-333),
structurally bounded by the remaining iteration count: compute distances and
assignments, accumulate the objective, break when the relative improvement
(prev_obj - obj) / prev_obj falls below min_improvement (prev = none models
the initial prev_obj = HUGE_VAL, for which the C float check compares NaN and
never breaks), else recompute centroids, repair empty clusters, and continue
with prev_obj = obj.  Returns the final centroid table and the list of
objective values computed, or none when split_clusters did not return. -/
def kmeansLoop (distf : ℕ → (ℕ → ℚ) → (ℕ → ℚ) → ℚ) (d k nx : ℕ)
    (x : ℕ → ℕ → ℚ) (rngs : ℕ → ℚ) (fuel : ℕ) :
    ℕ → Option ℚ → (ℕ → ℕ → ℚ) → Option ((ℕ → ℕ → ℚ) × List ℚ)
  | 0, _, c => some (c, [])
  | i + 1, prev, c =>
    let da := calculate_distances distf d k x c
    let obj := objective nx da
    let brk : Bool :=
      match prev with
      | none => false
      | some p => if (p - obj) / p < min_improvement then true else false
    if brk then some (c, [obj])
    else
      let hc := compute_centroids d k nx x fun i' => (da i').2
      match split_clusters d k nx hc.1 hc.2 rngs fuel with
      | none => none
      | some (_, c', _) =>
        (kmeansLoop distf d k nx x rngs fuel i (some obj) c').map
          fun p => (p.1, obj :: p.2)

/-- The observable stages of one pq_train call, mirroring the branch structure
of clustering.cpp lines 268-333 in source order. -/
inductive Stage
  | initCent
  | subsampleStage
  | cornerStage
  | abortStage
  | iterStage
deriving DecidableEq

/-- The outcome of one pq_train call: the returned bool (none when the call
never returns because a donor search loops), the centroid table the caller's
buffer holds at that point, the stages traversed, and the objective values the
loop computed. -/
structure TrainResult where
  ok : Option Bool
  centroids : ℕ → ℕ → ℚ
  stages : List Stage
  objs : List ℚ

/-- The tail of pq_train after the subsample / low-data branch (clustering.cpp
lines 298-334): the nx == k corner case copies the first k rows of the working
training set into the centroid table (memcpy of sizeof_centroids bytes) and
returns true; otherwise the k-means loop runs for up to max_iterations
rounds and the call returns true when the loop finishes. -/
def pq_train_main (distf : ℕ → (ℕ → ℚ) → (ℕ → ℚ) → ℚ) (d k nx : ℕ)
    (x : ℕ → ℕ → ℚ) (rngs : ℕ → ℚ) (c0 : ℕ → ℕ → ℚ) (fuel : ℕ)
    (st : List Stage) : TrainResult :=
  if nx = k then ⟨some true, fun ci j => x ci j, st ++ [Stage.cornerStage], []⟩
  else
    let r := kmeansLoop distf d k nx x rngs fuel max_iterations none c0
    ⟨r.map fun _ => true, (r.map fun p => p.1).getD c0, st ++ [Stage.iterStage],
     (r.map fun p => p.2).getD []⟩

/-- The switch over trainType of clustering.cpp lines 268-287, producing the
initial centroid table from the full training set: the default strategy
copies the k rows of x selected by the rand_perm(nx, seed + 1) realization
(the memcpy at line 284). -/
def initCentroids (tt : TrainType) (meta : HnswMetadata) (nx : ℕ)
    (x : ℕ → ℕ → ℚ) (co : Collab) : ℕ → ℕ → ℚ :=
  match tt with
  | TrainType.TT_HYPERCUBE => init_hypercube meta.pqSubdim meta.pqBits nx x
  | TrainType.TT_HYPERCUBE_PCA =>
      init_hypercube_pca meta.pqSubdim meta.pqBits co.pcaMean co.pcaSqrtEig co.pcaMat
  | TrainType.TT_DEFAULT => fun ci j => x (co.permInit ci) j

/-- pq_train (clustering.cpp lines 256-335).  In source order: initialize the
centroid table by the trainType strategy (the default strategy copies k rows
of the full training set chosen by rand_perm(nx, seed + 1)); then, if nx
exceeds k * max_points_per_centroid, replace the working training set by the
subsampled copy, else fail when nx < k * min_points_per_centroid; then run
the corner case or the iteration loop on the working set. -/
def pq_train (tt : TrainType) (meta : HnswMetadata) (nx : ℕ)
    (x : ℕ → ℕ → ℚ) (co : Collab) (fuel : ℕ) : TrainResult :=
  let d := meta.pqSubdim
  let k := 2 ^ meta.pqBits
  let c0 := initCentroids tt meta nx x co
  if nx > k * max_points_per_centroid then
    let s := subsample_training_set d k nx x co.permSub
    pq_train_main co.distf d k s.1 s.2 co.rngs c0 fuel
      [Stage.initCent, Stage.subsampleStage]
  else if nx < k * min_points_per_centroid then
    ⟨some false, c0, [Stage.initCent, Stage.abortStage], []⟩
  else
    pq_train_main co.distf d k nx x co.rngs c0 fuel [Stage.initCent]

/-- A pq_train call that never returns in the model: for every fuel bound on
the donor searches, some donor search still has not accepted, so the C loop
at clustering.cpp lines 139-146 is still running. -/
def pq_train_diverges (tt : TrainType) (meta : HnswMetadata) (nx : ℕ)
    (x : ℕ → ℕ → ℚ) (co : Collab) : Prop :=
  ∀ fuel, (pq_train tt meta nx x co fuel).ok = none

/-- A trivial collaborator realization: identity permutations (a legitimate
value of rand_perm for a fixed seed), the all-zero rand_float stream, and the
squared Euclidean metric. -/
def coTriv : Collab := ⟨id, id, fun _ => 0, sqdist, fun _ => 0, fun _ => 0, fun _ => 0⟩

/-- Training set for the C3 counterexample: 156 one-dimensional vectors in
three groups of 52 at coordinates 0, 10 and 20. -/
def xC3 : ℕ → ℕ → ℚ := fun i _ => if i < 52 then 0 else if i < 104 then 10 else 20

/-- Permutation realization for rand_perm(156, seed + 1) in the C3
counterexample: the product of the transpositions (1 52) and (2 104), so the
default initialization picks rows with values 0, 10, 20, 0. -/
def permC3 : ℕ → ℕ := fun i =>
  if i = 1 then 52 else if i = 52 then 1 else if i = 2 then 104 else if i = 104 then 2 else i

/-- Collaborators for the C3 counterexample: the rand_float stream is
constantly 9/10 (a legitimate deterministic stream with values in [0,1)). -/
def coC3 : Collab := ⟨id, permC3, fun _ => 9 / 10, sqdist, fun _ => 0, fun _ => 0, fun _ => 0⟩

/-- Training set for the C7 counterexample: 78 one-dimensional vectors, 51 at
0, 26 at 3, one at 100. -/
def xC7 : ℕ → ℕ → ℚ := fun i _ => if i < 51 then 0 else if i < 77 then 3 else 100

/-- Permutation realization for rand_perm(78, seed + 1) in the C7
counterexample: the transposition (1 77), so the default initialization picks
the rows with values 0 and 100. -/
def permC7 : ℕ → ℕ := fun i => if i = 1 then 77 else if i = 77 then 1 else i

/-- Collaborators for the C7 counterexample: the metric realization is the
Manhattan distance. -/
def coC7 : Collab := ⟨id, permC7, fun _ => 0, l1dist, fun _ => 0, fun _ => 0, fun _ => 0⟩

/-- Training set for the C8 counterexample: two one-dimensional vectors with
values 1 and 5. -/
def xC8 : ℕ → ℕ → ℚ := fun i _ => if i = 0 then 1 else 5

/-- Every pq_train_main result carries either the bool true or no bool at all
(the k-means loop path maps its Option to true, the corner case returns
true); only the low-data branch of pq_train itself produces false. -/
theorem pq_train_main_ok_cases (distf : ℕ → (ℕ → ℚ) → (ℕ → ℚ) → ℚ)
    (d k nx : ℕ) (x : ℕ → ℕ → ℚ) (rngs : ℕ → ℚ) (c0 : ℕ → ℕ → ℚ) (fuel : ℕ)
    (st : List Stage) :
    (pq_train_main distf d k nx x rngs c0 fuel st).ok = some true ∨
    (pq_train_main distf d k nx x rngs c0 fuel st).ok = none := by
  unfold pq_train_main
  by_cases h : nx = k
  · rw [if_pos h]; left; rfl
  · rw [if_neg h]
    cases hr : kmeansLoop distf d k nx x rngs fuel max_iterations none c0 with
    | none => right; simp [hr]
    | some p => left; simp [hr]

/-- Claim C1 (amended): for every training call with nx = k the low-data guard
fires first (k < 39 * k since k = 2 ^ bits ≥ 1), so pq_train reports failure;
the corner-case copy branch at clustering.cpp lines 298-302 is unreachable. -/
theorem C1_nx_eq_k_reports_failure (tt : TrainType) (meta : HnswMetadata)
    (nx : ℕ) (x : ℕ → ℕ → ℚ) (co : Collab) (fuel : ℕ)
    (hnk : nx = 2 ^ meta.pqBits) :
    (pq_train tt meta nx x co fuel).ok = some false := by
  subst hnk
  have hk : (1 : ℕ) ≤ 2 ^ meta.pqBits := Nat.one_le_two_pow
  have h1 : ¬ (2 ^ meta.pqBits > 2 ^ meta.pqBits * max_points_per_centroid) := by
    unfold max_points_per_centroid
    omega
  have h2 : 2 ^ meta.pqBits < 2 ^ meta.pqBits * min_points_per_centroid := by
    unfold min_points_per_centroid
    omega
  simp only [pq_train, h1, if_false, h2, if_true, if_neg, if_pos]

/-- Witness for C1_nx_eq_k_reports_failure at bits = 0, nx = 1. -/
theorem C1_nx_eq_k_reports_failure_witness :
    (pq_train TrainType.TT_DEFAULT ⟨1, 0⟩ 1 (fun _ _ => 0) coTriv 1).ok = some false :=
  C1_nx_eq_k_reports_failure TrainType.TT_DEFAULT ⟨1, 0⟩ 1 (fun _ _ => 0) coTriv 1 (by norm_num)

/-- Counterexample to claim C1 as stated: at d = 1, bits = 1 (k = 2) and a
training slice with nx = 2 = k, pq_train reports failure, not the success the
claim asserts for the nx = k corner case. -/
theorem C1_cex :
    (pq_train TrainType.TT_DEFAULT ⟨1, 1⟩ 2 (fun _ _ => 0) coTriv 1).ok = some false ∧
    (2 : ℕ) = 2 ^ (1 : ℕ) ∧
    (pq_train TrainType.TT_DEFAULT ⟨1, 1⟩ 2 (fun _ _ => 0) coTriv 1).ok ≠ some true := by
  refine ⟨by decide, by norm_num, by decide⟩

/-- Claim C2 (amended): whenever nx exceeds k * max_points_per_centroid the
orchestrator's stages run in the order initialize-centroids, then subsample,
then the iteration loop — initialization happens before subsampling, on the
full pre-subsampling training set (pq_train computes c0 from x before the
subsample branch). -/
theorem C2_init_before_subsample (tt : TrainType) (meta : HnswMetadata)
    (nx : ℕ) (x : ℕ → ℕ → ℚ) (co : Collab) (fuel : ℕ)
    (hcap : 2 ^ meta.pqBits * max_points_per_centroid < nx) :
    (pq_train tt meta nx x co fuel).stages =
      [Stage.initCent, Stage.subsampleStage, Stage.iterStage] := by
  have hk : (1 : ℕ) ≤ 2 ^ meta.pqBits := Nat.one_le_two_pow
  have hne : ¬ (2 ^ meta.pqBits * max_points_per_centroid = 2 ^ meta.pqBits) := by
    unfold max_points_per_centroid
    omega
  simp only [pq_train, subsample_training_set]
  rw [if_pos hcap]
  simp only [pq_train_main]
  rw [if_neg hne]
  rfl

/-- Witness for C2_init_before_subsample at bits = 0, nx = 300 > 256. -/
theorem C2_init_before_subsample_witness :
    (pq_train TrainType.TT_DEFAULT ⟨1, 0⟩ 300 (fun _ _ => 0) coTriv 1).stages =
      [Stage.initCent, Stage.subsampleStage, Stage.iterStage] :=
  C2_init_before_subsample TrainType.TT_DEFAULT ⟨1, 0⟩ 300 (fun _ _ => 0) coTriv 1
    (by norm_num [max_points_per_centroid])

/-- Counterexample to claim C2 as stated: at d = 1, bits = 1, nx = 513 (which
exceeds k * 256 = 512 and triggers subsampling) the stage trace places the
centroid initialization strictly before the subsample stage, so the claimed
order subsample-then-initialize is false and the initializers read the full,
not the subsampled, training set. -/
theorem C2_cex :
    (pq_train TrainType.TT_DEFAULT ⟨1, 1⟩ 513 (fun _ _ => 0) coTriv 1).stages =
      [Stage.initCent, Stage.subsampleStage, Stage.iterStage] ∧
    ¬ List.indexOf Stage.subsampleStage
        (pq_train TrainType.TT_DEFAULT ⟨1, 1⟩ 513 (fun _ _ => 0) coTriv 1).stages <
      List.indexOf Stage.initCent
        (pq_train TrainType.TT_DEFAULT ⟨1, 1⟩ 513 (fun _ _ => 0) coTriv 1).stages := by
  refine ⟨by decide, by decide⟩

/-- Claim C8 (amended): pq_train is deterministic in its complete inputs: two
runs with the same process-wide trainType, identical metadata, identical
training slices, the same collaborator realizations (fixed by the built-in
seed) and the same fuel produce identical results — in particular bit-identical
centroid tables and identical success/failure reports.  The process-wide
trainType must be included: it is mutable global state, not metadata. -/
theorem C8_deterministic (tt tt' : TrainType) (m m' : HnswMetadata)
    (nx nx' : ℕ) (x x' : ℕ → ℕ → ℚ) (co co' : Collab) (fuel fuel' : ℕ)
    (h1 : tt = tt') (h2 : m = m') (h3 : nx = nx') (h4 : x = x')
    (h5 : co = co') (h6 : fuel = fuel') :
    pq_train tt m nx x co fuel = pq_train tt' m' nx' x' co' fuel' := by
  subst h1; subst h2; subst h3; subst h4; subst h5; subst h6; rfl

/-- Witness for C8_deterministic at a concrete argument tuple. -/
theorem C8_deterministic_witness :
    pq_train TrainType.TT_DEFAULT ⟨1, 1⟩ 2 xC8 coTriv 1 =
      pq_train TrainType.TT_DEFAULT ⟨1, 1⟩ 2 xC8 coTriv 1 :=
  C8_deterministic TrainType.TT_DEFAULT TrainType.TT_DEFAULT ⟨1, 1⟩ ⟨1, 1⟩ 2 2
    xC8 xC8 coTriv coTriv 1 1 rfl rfl rfl rfl rfl rfl

/-- Counterexample to claim C8 as stated: two runs with identical metadata,
identical training slices, the same collaborator realizations for the fixed
seed and the same fuel — differing only in the process-wide trainType global,
which the claim does not list among the inputs — produce centroid tables that
differ at row 0, coordinate 0 (value 1 under the default initialization versus
0 under the hypercube initialization), so the tables are not bit-identical. -/
theorem C8_cex :
    (pq_train TrainType.TT_DEFAULT ⟨1, 1⟩ 2 xC8 coTriv 1).centroids 0 0 ≠
    (pq_train TrainType.TT_HYPERCUBE ⟨1, 1⟩ 2 xC8 coTriv 1).centroids 0 0 := by
  decide!

/-- Claim C3 (amended): pq_train reports failure exactly when nx is below
k * min_points_per_centroid; in every other case in which the call returns at
all, it reports success — but the donor-acceptance loop of split_clusters has
no bound, and for some contract-conforming random streams the call never
returns (see C3_cex). -/
theorem C3_low_data_guard (tt : TrainType) (m : HnswMetadata) (nx : ℕ)
    (x : ℕ → ℕ → ℚ) (co : Collab) (fuel : ℕ) :
    ((pq_train tt m nx x co fuel).ok = some false ↔
        nx < 2 ^ m.pqBits * min_points_per_centroid) ∧
    ((pq_train tt m nx x co fuel).ok ≠ none →
      2 ^ m.pqBits * min_points_per_centroid ≤ nx →
      (pq_train tt m nx x co fuel).ok = some true) := by
  by_cases h1 : nx > 2 ^ m.pqBits * max_points_per_centroid
  · have hmin : ¬ nx < 2 ^ m.pqBits * min_points_per_centroid := by
      unfold min_points_per_centroid max_points_per_centroid at *
      omega
    simp only [pq_train]
    rw [if_pos h1]
    rcases pq_train_main_ok_cases co.distf m.pqSubdim (2 ^ m.pqBits)
        (subsample_training_set m.pqSubdim (2 ^ m.pqBits) nx x co.permSub).1
        (subsample_training_set m.pqSubdim (2 ^ m.pqBits) nx x co.permSub).2 co.rngs
        (initCentroids tt m nx x co) fuel [Stage.initCent, Stage.subsampleStage]
      with hc | hc <;> rw [hc]
    · exact ⟨iff_of_false (by simp) hmin, fun _ _ => rfl⟩
    · exact ⟨iff_of_false (by simp) hmin, fun hne _ => absurd rfl hne⟩
  · by_cases h2 : nx < 2 ^ m.pqBits * min_points_per_centroid
    · simp only [pq_train]
      rw [if_neg h1, if_pos h2]
      exact ⟨iff_of_true rfl h2, fun _ hge => absurd h2 (by omega)⟩
    · simp only [pq_train]
      rw [if_neg h1, if_neg h2]
      rcases pq_train_main_ok_cases co.distf m.pqSubdim (2 ^ m.pqBits) nx x co.rngs
          (initCentroids tt m nx x co) fuel [Stage.initCent] with hc | hc <;> rw [hc]
      · exact ⟨iff_of_false (by simp) h2, fun _ _ => rfl⟩
      · exact ⟨iff_of_false (by simp) h2, fun hne _ => absurd rfl hne⟩

/-- Witness for C3_low_data_guard: at bits = 0, nx = 39 the call returns with
success, and the guard implication yields it from the returned-at-all and
enough-data hypotheses. -/
theorem C3_low_data_guard_witness :
    (pq_train TrainType.TT_DEFAULT ⟨1, 0⟩ 39 (fun _ _ => 0) coTriv 1).ok = some true :=
  (C3_low_data_guard TrainType.TT_DEFAULT ⟨1, 0⟩ 39 (fun _ _ => 0) coTriv 1).2
    (by decide!) (by norm_num [min_points_per_centroid])

/-- Claim C6: for nx above the cap, the subsampler returns exactly k * 256
rows, row i being the copy of original row perm i (the order of the seeded
permutation), rows coming from pairwise distinct original rows; and when nx
is within the cap, pq_train's trace has no subsample stage (no copy occurs).
The two permutation hypotheses are the rand_perm contract of spec.md. -/
theorem C6_subsample_exact (d k nx : ℕ) (x : ℕ → ℕ → ℚ) (perm : ℕ → ℕ)
    (hcap : k * max_points_per_centroid < nx)
    (hlt : ∀ i, i < nx → perm i < nx)
    (hinj : ∀ i i', i < nx → i' < nx → i ≠ i' → perm i ≠ perm i') :
    (subsample_training_set d k nx x perm).1 = k * 256 ∧
    (∀ i, i < k * 256 → perm i < nx ∧
      ∀ j, (subsample_training_set d k nx x perm).2 i j = x (perm i) j) ∧
    (∀ i i', i < k * 256 → i' < k * 256 → i ≠ i' → perm i ≠ perm i') ∧
    (∀ tt meta co fuel, nx ≤ 2 ^ HnswMetadata.pqBits meta * max_points_per_centroid →
      Stage.subsampleStage ∉ (pq_train tt meta nx x co fuel).stages) := by
  have hcap' : k * 256 < nx := by
    unfold max_points_per_centroid at hcap
    exact hcap
  refine ⟨rfl,
    fun i hi => ⟨hlt i (by omega), fun j => rfl⟩,
    fun i i' hi hi' hne => hinj i i' (by omega) (by omega) hne,
    ?_⟩
  intro tt meta co fuel hle
  simp only [pq_train]
  rw [if_neg (not_lt.mpr hle)]
  by_cases h2 : nx < 2 ^ meta.pqBits * min_points_per_centroid
  · rw [if_pos h2]
    simp
  · rw [if_neg h2]
    simp only [pq_train_main]
    by_cases h3 : nx = 2 ^ meta.pqBits
    · rw [if_pos h3]
      simp
    · rw [if_neg h3]
      simp

/-- Witness for C6_subsample_exact at d = 1, k = 1, nx = 257 with the identity
permutation realization: the returned row count is exactly 1 * 256. -/
theorem C6_subsample_exact_witness :
    (subsample_training_set 1 1 257 (fun i _ => (i : ℚ)) id).1 = 1 * 256 :=
  (C6_subsample_exact 1 1 257 (fun i _ => (i : ℚ)) id
    (by norm_num [max_points_per_centroid]) (fun i h => h)
    (fun i i' _ _ hne => hne)).1

/-- A successful donor search returns an index below k whose current
population strictly exceeds 1: acceptance needs a draw strictly below
(hassign[cj] - 1) / (n - k), the draws are nonnegative, and the denominator
is a nonnegative rational, which forces hassign[cj] - 1 > 0. -/
theorem findDonor_some_spec (k n : ℕ) (h : ℕ → ℚ) (rngs : ℕ → ℚ)
    (hr : ∀ t, 0 ≤ rngs t) :
    ∀ fuel t cj cj' t', cj < k →
      findDonor k n h rngs t cj fuel = some (cj', t') →
      cj' < k ∧ 1 < h cj' := by
  intro fuel
  induction fuel with
  | zero =>
    intro t cj cj' t' _ heq
    simp [findDonor] at heq
  | succ f ih =>
    intro t cj cj' t' hcj heq
    rw [findDonor] at heq
    by_cases hacc : rngs t < (h cj - 1) / ((n - k : ℕ) : ℚ)
    · rw [if_pos hacc] at heq
      injection heq with heq'
      injection heq' with h1 h2
      subst h1
      have hm : (0 : ℚ) ≤ ((n - k : ℕ) : ℚ) := Nat.cast_nonneg _
      have hpos : 0 < (h cj - 1) / ((n - k : ℕ) : ℚ) := lt_of_le_of_lt (hr t) hacc
      refine ⟨hcj, ?_⟩
      by_contra hle
      have hnp : (h cj - 1) / ((n - k : ℕ) : ℚ) ≤ 0 :=
        div_nonpos_iff.mpr (Or.inr ⟨by linarith, hm⟩)
      linarith
    · rw [if_neg hacc] at heq
      exact ih (t + 1) ((cj + 1) % k) cj' t' (Nat.mod_lt _ (by omega)) heq

/-- When every index the repair loop still has to visit is populated, the loop
changes nothing. -/
theorem splitLoop_skip_all (k n : ℕ) (rngs : ℕ → ℚ) (fuel : ℕ) :
    ∀ (l : List ℕ) (st : SplitState), (∀ ci ∈ l, st.hassign ci ≠ 0) →
      splitLoop k n rngs fuel l st = some st := by
  intro l
  induction l with
  | nil => intro st _; rfl
  | cons ci rest ih =>
    intro st hl
    rw [splitLoop, if_neg (hl ci (List.mem_cons_self ci rest))]
    exact ih st fun c hc => hl c (List.mem_cons_of_mem ci hc)

/-- Pointwise value of the histogram after one repair: the two sequential
writes hassign[ci] = hassign[cj] / 2 and hassign[cj] -= hassign[ci] leave
half the donor's population at both indices (for a donor distinct from the
repaired slot). -/
theorem upd2_apply (h : ℕ → ℚ) (ci cj : ℕ) (hne : cj ≠ ci) (i : ℕ) :
    Function.update (Function.update h ci (h cj / 2)) cj
      (Function.update h ci (h cj / 2) cj - Function.update h ci (h cj / 2) ci) i
    = if i = cj then h cj / 2 else if i = ci then h cj / 2 else h i := by
  rw [Function.update_apply]
  by_cases hicj : i = cj
  · rw [if_pos hicj, if_pos hicj, Function.update_apply, if_neg hne,
      Function.update_same]
    ring
  · rw [if_neg hicj, if_neg hicj, Function.update_apply]

/-- Positivity invariant of the repair loop: starting from a nonnegative
histogram in which every already-processed index is populated, a completed
loop leaves every centroid index below k with strictly positive population. -/
theorem splitLoop_some_pos (k n : ℕ) (rngs : ℕ → ℚ) (fuel : ℕ)
    (hr : ∀ t, 0 ≤ rngs t) :
    ∀ (l : List ℕ) (st st' : SplitState), (∀ ci ∈ l, ci < k) →
      (∀ i, i < k → 0 ≤ st.hassign i) →
      (∀ i, i < k → i ∉ l → st.hassign i ≠ 0) →
      splitLoop k n rngs fuel l st = some st' →
      ∀ i, i < k → 0 < st'.hassign i := by
  intro l
  induction l with
  | nil =>
    intro st st' _ hnn hproc heq i hi
    have hst : st = st' := by
      have : some st = some st' := heq
      injection this
    subst hst
    exact lt_of_le_of_ne (hnn i hi) (Ne.symm (hproc i hi (List.not_mem_nil i)))
  | cons ci rest ih =>
    intro st st' hl hnn hproc heq i hi
    have hcik : ci < k := hl ci (List.mem_cons_self ci rest)
    rw [splitLoop] at heq
    by_cases hz : st.hassign ci = 0
    · rw [if_pos hz] at heq
      cases hfd : findDonor k n st.hassign rngs st.t 0 fuel with
      | none => rw [hfd] at heq; cases heq
      | some p =>
        obtain ⟨cj, t'⟩ := p
        rw [hfd] at heq
        obtain ⟨hcjk, hcj1⟩ :=
          findDonor_some_spec k n st.hassign rngs hr fuel st.t 0 cj t'
            (by omega) hfd
        have hne : cj ≠ ci := fun hcc => by rw [hcc, hz] at hcj1; linarith
        have hhalf : 0 < st.hassign cj / 2 := by linarith
        refine ih _ st' (fun c hc => hl c (List.mem_cons_of_mem ci hc))
          ?_ ?_ heq i hi
        · intro i' hi'
          show 0 ≤ Function.update (Function.update st.hassign ci (st.hassign cj / 2)) cj
            (Function.update st.hassign ci (st.hassign cj / 2) cj -
              Function.update st.hassign ci (st.hassign cj / 2) ci) i'
          rw [upd2_apply st.hassign ci cj hne i']
          by_cases hicj : i' = cj
          · rw [if_pos hicj]; linarith
          · rw [if_neg hicj]
            by_cases hici : i' = ci
            · rw [if_pos hici]; linarith
            · rw [if_neg hici]; exact hnn i' hi'
        · intro i' hi' hnotin
          show Function.update (Function.update st.hassign ci (st.hassign cj / 2)) cj
            (Function.update st.hassign ci (st.hassign cj / 2) cj -
              Function.update st.hassign ci (st.hassign cj / 2) ci) i' ≠ 0
          rw [upd2_apply st.hassign ci cj hne i']
          by_cases hicj : i' = cj
          · rw [if_pos hicj]; exact ne_of_gt hhalf
          · rw [if_neg hicj]
            by_cases hici : i' = ci
            · rw [if_pos hici]; exact ne_of_gt hhalf
            · rw [if_neg hici]
              exact hproc i' hi' fun hmem => by
                rcases List.mem_cons.mp hmem with hc | hc
                · exact hici hc
                · exact hnotin hc
    · rw [if_neg hz] at heq
      refine ih st st' (fun c hc => hl c (List.mem_cons_of_mem ci hc)) hnn ?_ heq i hi
      intro i' hi' hnotin
      by_cases hici : i' = ci
      · rw [hici]; exact hz
      · exact hproc i' hi' fun hmem => by
          rcases List.mem_cons.mp hmem with hc | hc
          · exact hici hc
          · exact hnotin hc

/-- The histogram accumulated over the first n training vectors counts, for
each centroid index, the training indices assigned to it. -/
theorem hassignAcc_eq_card (a : ℕ → ℕ) (n ci : ℕ) :
    hassignAcc a n ci = (((Finset.range n).filter fun i => a i = ci).card : ℚ) := by
  induction n with
  | zero => simp [hassignAcc]
  | succ n ih =>
    rw [hassignAcc, ih, Finset.range_succ, Finset.filter_insert]
    by_cases h : a n = ci
    · rw [if_pos h, if_pos h, Finset.card_insert_of_not_mem (by simp)]
      push_cast
      ring
    · rw [if_neg h, if_neg h, add_zero]

/-- The centroid row accumulated over the first n training vectors is the
coordinate-wise sum of the vectors assigned to it. -/
theorem centroidsAcc_eq_sum (x : ℕ → ℕ → ℚ) (a : ℕ → ℕ) (n ci j : ℕ) :
    centroidsAcc x a n ci j =
      ∑ i ∈ (Finset.range n).filter (fun i => a i = ci), x i j := by
  induction n with
  | zero => simp [centroidsAcc]
  | succ n ih =>
    rw [centroidsAcc, ih, Finset.range_succ, Finset.filter_insert]
    by_cases h : a n = ci
    · rw [if_pos h, if_pos h, Finset.sum_insert (by simp)]
      ring
    · rw [if_neg h, if_neg h, add_zero]

/-- Claim C4: after one compute_centroids pass over an assignment vector with
entries in [0, k), the histogram entry of each centroid is the number of
training vectors assigned to it, every centroid with nonzero count is the
coordinate-wise arithmetic mean (sum divided by count) of its assigned
vectors, every centroid with count zero is all-zero, and in particular for
k = 1 the single centroid is the mean of all n training vectors. -/
theorem C4_recompute_is_mean (d k n : ℕ) (x : ℕ → ℕ → ℚ) (a : ℕ → ℕ)
    (ha : ∀ i, i < n → a i < k) :
    (∀ ci, (compute_centroids d k n x a).1 ci =
      (((Finset.range n).filter fun i => a i = ci).card : ℚ)) ∧
    (∀ ci j, (compute_centroids d k n x a).1 ci ≠ 0 →
      (compute_centroids d k n x a).2 ci j =
        (∑ i ∈ (Finset.range n).filter (fun i => a i = ci), x i j) /
          (((Finset.range n).filter fun i => a i = ci).card : ℚ)) ∧
    (∀ ci j, (compute_centroids d k n x a).1 ci = 0 →
      (compute_centroids d k n x a).2 ci j = 0) ∧
    (k = 1 → 0 < n → ∀ j,
      (compute_centroids d k n x a).2 0 j = (∑ i ∈ Finset.range n, x i j) / (n : ℚ)) := by
  have hfilter0 : ∀ ci, hassignAcc a n ci = 0 →
      (Finset.range n).filter (fun i => a i = ci) = ∅ := by
    intro ci h0
    rw [hassignAcc_eq_card] at h0
    exact Finset.card_eq_zero.mp (Nat.cast_injective (h0.trans (by norm_num)))
  refine ⟨fun ci => hassignAcc_eq_card a n ci, fun ci j hne => ?_, fun ci j h0 => ?_, ?_⟩
  · show (if hassignAcc a n ci = 0 then centroidsAcc x a n ci j
      else (1 / hassignAcc a n ci) * centroidsAcc x a n ci j) = _
    have hne' : hassignAcc a n ci ≠ 0 := hne
    rw [if_neg hne', centroidsAcc_eq_sum, one_div_mul_eq_div, hassignAcc_eq_card]
  · show (if hassignAcc a n ci = 0 then centroidsAcc x a n ci j
      else (1 / hassignAcc a n ci) * centroidsAcc x a n ci j) = 0
    have h0' : hassignAcc a n ci = 0 := h0
    rw [if_pos h0', centroidsAcc_eq_sum, hfilter0 ci h0', Finset.sum_empty]
  · intro hk1 hn j
    subst hk1
    have hall : (Finset.range n).filter (fun i => a i = 0) = Finset.range n := by
      apply Finset.filter_true_of_mem
      intro i hi
      have := ha i (Finset.mem_range.mp hi)
      omega
    have hcount : hassignAcc a n 0 = (n : ℚ) := by
      rw [hassignAcc_eq_card, hall]
      simp
    have hne0 : hassignAcc a n 0 ≠ 0 := by
      rw [hcount]
      exact_mod_cast Nat.pos_iff_ne_zero.mp hn
    show (if hassignAcc a n 0 = 0 then centroidsAcc x a n 0 j
      else (1 / hassignAcc a n 0) * centroidsAcc x a n 0 j) = _
    rw [if_neg hne0, centroidsAcc_eq_sum, hall, one_div_mul_eq_div, hcount]

/-- Witness for C4_recompute_is_mean at d = 1, k = 2, n = 3 with the parity
assignment: the histogram entry of centroid 0 counts the two even indices. -/
theorem C4_recompute_is_mean_witness :
    (compute_centroids 1 2 3 (fun i _ => (i : ℚ)) (fun i => i % 2)).1 0 =
      (((Finset.range 3).filter fun i => i % 2 = 0).card : ℚ) :=
  (C4_recompute_is_mean 1 2 3 (fun i _ => (i : ℚ)) (fun i => i % 2)
    (fun i _ => Nat.mod_lt i (by norm_num))).1 0

/-- One step of the inner loop of calculate_distances when the running
minimum is still the initial HUGE_VALF: centroid j becomes the minimum. -/
theorem nearestAux_succ_none (distf : ℕ → (ℕ → ℚ) → (ℕ → ℚ) → ℚ) (d : ℕ)
    (xi : ℕ → ℚ) (c : ℕ → ℕ → ℚ) (j : ℕ)
    (hj : (nearestAux distf d xi c j).1 = none) :
    nearestAux distf d xi c (j + 1) = (some (distf d xi (c j)), j) := by
  have : nearestAux distf d xi c (j + 1) =
      match (nearestAux distf d xi c j).1 with
      | none => (some (distf d xi (c j)), j)
      | some m =>
        if distf d xi (c j) < m then (some (distf d xi (c j)), j)
        else nearestAux distf d xi c j := rfl
  rw [this, hj]

/-- One step of the inner loop of calculate_distances against a running
minimum m: centroid j replaces it exactly on a strict decrease. -/
theorem nearestAux_succ_some (distf : ℕ → (ℕ → ℚ) → (ℕ → ℚ) → ℚ) (d : ℕ)
    (xi : ℕ → ℚ) (c : ℕ → ℕ → ℚ) (j : ℕ) (m : ℚ)
    (hj : (nearestAux distf d xi c j).1 = some m) :
    nearestAux distf d xi c (j + 1) =
      if distf d xi (c j) < m then (some (distf d xi (c j)), j)
      else nearestAux distf d xi c j := by
  have : nearestAux distf d xi c (j + 1) =
      match (nearestAux distf d xi c j).1 with
      | none => (some (distf d xi (c j)), j)
      | some m =>
        if distf d xi (c j) < m then (some (distf d xi (c j)), j)
        else nearestAux distf d xi c j := rfl
  rw [this, hj]

/-- The index tracked by the inner loop of calculate_distances stays below the
number of centroids scanned (it starts at 0 and is only ever set to the loop
counter). -/
theorem nearestAux_idx_lt (distf : ℕ → (ℕ → ℚ) → (ℕ → ℚ) → ℚ) (d : ℕ)
    (xi : ℕ → ℚ) (c : ℕ → ℕ → ℚ) :
    ∀ k, 0 < k → (nearestAux distf d xi c k).2 < k := by
  intro k
  induction k with
  | zero => intro h; exact absurd h (lt_irrefl 0)
  | succ j ih =>
    intro _
    cases hj : (nearestAux distf d xi c j).1 with
    | none =>
      rw [nearestAux_succ_none distf d xi c j hj]
      exact Nat.lt_succ_self j
    | some m =>
      rw [nearestAux_succ_some distf d xi c j m hj]
      by_cases hlt : distf d xi (c j) < m
      · rw [if_pos hlt]
        exact Nat.lt_succ_self j
      · rw [if_neg hlt]
        cases j with
        | zero => simp [nearestAux] at hj
        | succ j' => exact Nat.lt_succ_of_lt (ih (Nat.succ_pos j'))

/-- The running minimum of the inner loop of calculate_distances is realized
at the tracked index and is a lower bound for the distances to all centroids
scanned so far. -/
theorem nearestAux_spec (distf : ℕ → (ℕ → ℚ) → (ℕ → ℚ) → ℚ) (d : ℕ)
    (xi : ℕ → ℚ) (c : ℕ → ℕ → ℚ) :
    ∀ k, 0 < k → ∃ m, (nearestAux distf d xi c k).1 = some m ∧
      m = distf d xi (c ((nearestAux distf d xi c k).2)) ∧
      ∀ j, j < k → m ≤ distf d xi (c j) := by
  intro k
  induction k with
  | zero => intro h; exact absurd h (lt_irrefl 0)
  | succ j ih =>
    intro _
    cases j with
    | zero =>
      refine ⟨distf d xi (c 0), ?_, ?_, ?_⟩
      · rfl
      · rfl
      · intro j' hj'
        interval_cases j'
        exact le_refl _
    | succ j' =>
      obtain ⟨m, hm1, hm2, hm3⟩ := ih (Nat.succ_pos j')
      rw [nearestAux_succ_some distf d xi c (j' + 1) m hm1]
      by_cases hlt : distf d xi (c (j' + 1)) < m
      · rw [if_pos hlt]
        refine ⟨distf d xi (c (j' + 1)), rfl, rfl, ?_⟩
        intro j'' hj''
        rcases Nat.lt_succ_iff_lt_or_eq.mp hj'' with hc | hc
        · exact le_trans (le_of_lt hlt) (hm3 j'' hc)
        · rw [hc]
      · rw [if_neg hlt]
        refine ⟨m, hm1, hm2, ?_⟩
        intro j'' hj''
        rcases Nat.lt_succ_iff_lt_or_eq.mp hj'' with hc | hc
        · exact hm3 j'' hc
        · rw [hc]
          exact not_lt.mp hlt

/-- Claim C10: for k ≥ 1 every assignment index produced by
calculate_distances lies in [0, k), so the assertion assign[i] < k of
compute_centroids holds, and every centroid-table access centroids[assign[i]
* d + j] with j < d stays below the k * d allocated elements. -/
theorem C10_assign_in_bounds (distf : ℕ → (ℕ → ℚ) → (ℕ → ℚ) → ℚ) (d k : ℕ)
    (x : ℕ → ℕ → ℚ) (c : ℕ → ℕ → ℚ) (hk : 0 < k) :
    ∀ i, (calculate_distances distf d k x c i).2 < k ∧
      ∀ j, j < d → (calculate_distances distf d k x c i).2 * d + j < k * d := by
  intro i
  have hlt : (calculate_distances distf d k x c i).2 < k :=
    nearestAux_idx_lt distf d (x i) c k hk
  refine ⟨hlt, fun j hj => ?_⟩
  calc (calculate_distances distf d k x c i).2 * d + j
      < (calculate_distances distf d k x c i).2 * d + d := by omega
    _ = ((calculate_distances distf d k x c i).2 + 1) * d := by ring
    _ ≤ k * d := Nat.mul_le_mul_right d hlt

/-- Witness for C10_assign_in_bounds at d = 2, k = 2 on a concrete instance. -/
theorem C10_assign_in_bounds_witness :
    (calculate_distances sqdist 2 2 (fun _ _ => 0) (fun _ _ => 1) 0).2 < 2 :=
  (C10_assign_in_bounds sqdist 2 2 (fun _ _ => 0) (fun _ _ => 1) (by norm_num) 0).1

/-- Sum-of-squares optimality of the arithmetic mean over a nonempty finite
index set: replacing any value c by the mean never increases the sum of
squared deviations (the cross term vanishes). -/
theorem sum_sq_dev_mean_le (S : Finset ℕ) (f : ℕ → ℚ) (c : ℚ)
    (hS : S.card ≠ 0) :
    ∑ i ∈ S, (f i - (∑ i ∈ S, f i) / (S.card : ℚ)) ^ 2 ≤
      ∑ i ∈ S, (f i - c) ^ 2 := by
  set μ : ℚ := (∑ i ∈ S, f i) / (S.card : ℚ) with hμ
  have hcard : ((S.card : ℕ) : ℚ) ≠ 0 := Nat.cast_ne_zero.mpr hS
  have hsum : ∑ i ∈ S, f i = (S.card : ℚ) * μ := by
    rw [hμ]
    field_simp
  have hdev : ∑ i ∈ S, (f i - μ) = 0 := by
    rw [Finset.sum_sub_distrib, Finset.sum_const, nsmul_eq_mul, hsum]
    ring
  have hexp : ∀ i ∈ S, (f i - c) ^ 2 =
      (f i - μ) ^ 2 + 2 * (μ - c) * (f i - μ) + (μ - c) ^ 2 := by
    intro i _
    ring
  have hkey : ∑ i ∈ S, (f i - c) ^ 2 =
      ∑ i ∈ S, (f i - μ) ^ 2 + (S.card : ℚ) * (μ - c) ^ 2 := by
    rw [Finset.sum_congr rfl hexp, Finset.sum_add_distrib, Finset.sum_add_distrib,
      ← Finset.mul_sum, hdev, Finset.sum_const, nsmul_eq_mul]
    ring
  have hnn : 0 ≤ (S.card : ℚ) * (μ - c) ^ 2 :=
    mul_nonneg (Nat.cast_nonneg _) (sq_nonneg _)
  rw [hkey]
  linarith

/-- The objective the loop accumulates equals the sum over training vectors of
the squared distance (any metric) to their recorded nearest centroid. -/
theorem objective_eq_sum_assigned (distf : ℕ → (ℕ → ℚ) → (ℕ → ℚ) → ℚ)
    (d k n : ℕ) (x : ℕ → ℕ → ℚ) (c : ℕ → ℕ → ℚ) (hk : 0 < k) :
    objective n (calculate_distances distf d k x c) =
      ∑ i ∈ Finset.range n,
        distf d (x i) (c ((calculate_distances distf d k x c i).2)) := by
  unfold objective
  apply Finset.sum_congr rfl
  intro i _
  obtain ⟨m, hm1, hm2, _⟩ := nearestAux_spec distf d (x i) c k hk
  show ((calculate_distances distf d k x c i).1).getD 0 = _
  unfold calculate_distances
  rw [hm1, Option.getD_some, hm2]

/-- The recorded nearest distance is bounded by the distance to any chosen
centroid index below k, summed over the training set. -/
theorem objective_min_le (distf : ℕ → (ℕ → ℚ) → (ℕ → ℚ) → ℚ)
    (d k n : ℕ) (x : ℕ → ℕ → ℚ) (c : ℕ → ℕ → ℚ) (hk : 0 < k)
    (a : ℕ → ℕ) (halt : ∀ i, i < n → a i < k) :
    objective n (calculate_distances distf d k x c) ≤
      ∑ i ∈ Finset.range n, distf d (x i) (c (a i)) := by
  unfold objective
  apply Finset.sum_le_sum
  intro i hi
  obtain ⟨m, hm1, _, hm3⟩ := nearestAux_spec distf d (x i) c k hk
  show ((calculate_distances distf d k x c i).1).getD 0 ≤ _
  unfold calculate_distances
  rw [hm1, Option.getD_some]
  exact hm3 (a i) (halt i (Finset.mem_range.mp hi))

/-- Replacing each assigned centroid row by the recomputed mean row never
increases the total squared distance of the training vectors to their
assigned rows: group the sum by assigned centroid and apply the mean
optimality coordinate by coordinate. -/
theorem sum_dist_to_mean_le (d k n : ℕ) (x : ℕ → ℕ → ℚ) (c : ℕ → ℕ → ℚ)
    (a : ℕ → ℕ) (ha : ∀ i, i < n → a i < k) :
    ∑ i ∈ Finset.range n, sqdist d (x i) ((compute_centroids d k n x a).2 (a i))
      ≤ ∑ i ∈ Finset.range n, sqdist d (x i) (c (a i)) := by
  have hmap : ∀ i ∈ Finset.range n, a i ∈ Finset.range k := by
    intro i hi
    exact Finset.mem_range.mpr (ha i (Finset.mem_range.mp hi))
  rw [← Finset.sum_fiberwise_of_maps_to hmap
    (fun i => sqdist d (x i) ((compute_centroids d k n x a).2 (a i)))]
  rw [← Finset.sum_fiberwise_of_maps_to hmap
    (fun i => sqdist d (x i) (c (a i)))]
  apply Finset.sum_le_sum
  intro ci _
  have hL : ∑ i ∈ (Finset.range n).filter (fun i => a i = ci),
      sqdist d (x i) ((compute_centroids d k n x a).2 (a i)) =
    ∑ i ∈ (Finset.range n).filter (fun i => a i = ci),
      sqdist d (x i) ((compute_centroids d k n x a).2 ci) :=
    Finset.sum_congr rfl fun i hi => by rw [(Finset.mem_filter.mp hi).2]
  have hR : ∑ i ∈ (Finset.range n).filter (fun i => a i = ci),
      sqdist d (x i) (c (a i)) =
    ∑ i ∈ (Finset.range n).filter (fun i => a i = ci),
      sqdist d (x i) (c ci) :=
    Finset.sum_congr rfl fun i hi => by rw [(Finset.mem_filter.mp hi).2]
  rw [hL, hR]
  unfold sqdist
  rw [Finset.sum_comm, Finset.sum_comm
    (s := (Finset.range n).filter (fun i => a i = ci)) (t := Finset.range d)]
  apply Finset.sum_le_sum
  intro j _
  by_cases hS : ((Finset.range n).filter (fun i => a i = ci)).card = 0
  · rw [Finset.card_eq_zero.mp hS]
    simp
  · have hne : hassignAcc a n ci ≠ 0 := by
      rw [hassignAcc_eq_card]
      exact Nat.cast_ne_zero.mpr hS
    have hcc : (compute_centroids d k n x a).2 ci j =
        (∑ i ∈ (Finset.range n).filter (fun i => a i = ci), x i j) /
          ((((Finset.range n).filter (fun i => a i = ci)).card : ℕ) : ℚ) := by
      show (if hassignAcc a n ci = 0 then centroidsAcc x a n ci j
        else (1 / hassignAcc a n ci) * centroidsAcc x a n ci j) = _
      rw [if_neg hne, centroidsAcc_eq_sum, one_div_mul_eq_div, hassignAcc_eq_card]
    rw [hcc]
    exact sum_sq_dev_mean_le ((Finset.range n).filter (fun i => a i = ci))
      (fun i => x i j) (c ci j) hS

/-- Claim C7 (amended): under the squared Euclidean metric, in exact
arithmetic, across any iteration whose recomputation pass leaves no centroid
empty, the repair pass leaves histogram and centroids unchanged (zero splits)
and the objective computed in the next iteration does not exceed the one just
computed.  With other conforming metrics the objective can increase (C7_cex),
which is why the metric must be restricted. -/
theorem C7_monotone_under_sq_metric (d k n : ℕ) (x : ℕ → ℕ → ℚ)
    (c : ℕ → ℕ → ℚ) (rngs : ℕ → ℚ) (fuel : ℕ) (hk : 0 < k)
    (hne : ∀ ci, ci < k →
      (compute_centroids d k n x
        (fun i => (calculate_distances sqdist d k x c i).2)).1 ci ≠ 0) :
    split_clusters d k n
        (compute_centroids d k n x
          (fun i => (calculate_distances sqdist d k x c i).2)).1
        (compute_centroids d k n x
          (fun i => (calculate_distances sqdist d k x c i).2)).2 rngs fuel
      = some ((compute_centroids d k n x
          (fun i => (calculate_distances sqdist d k x c i).2)).1,
        (compute_centroids d k n x
          (fun i => (calculate_distances sqdist d k x c i).2)).2, 0) ∧
    objective n (calculate_distances sqdist d k x
        (compute_centroids d k n x
          (fun i => (calculate_distances sqdist d k x c i).2)).2)
      ≤ objective n (calculate_distances sqdist d k x c) := by
  constructor
  · unfold split_clusters
    rw [splitLoop_skip_all k n rngs fuel (List.range k)
      ⟨(compute_centroids d k n x
          (fun i => (calculate_distances sqdist d k x c i).2)).1,
        (compute_centroids d k n x
          (fun i => (calculate_distances sqdist d k x c i).2)).2, 0, 0⟩
      (fun ci hci => hne ci (List.mem_range.mp hci))]
    rfl
  · have ha : ∀ i, i < n → (calculate_distances sqdist d k x c i).2 < k :=
      fun i _ => nearestAux_idx_lt sqdist d (x i) c k hk
    calc objective n (calculate_distances sqdist d k x
          (compute_centroids d k n x
            (fun i => (calculate_distances sqdist d k x c i).2)).2)
        ≤ ∑ i ∈ Finset.range n, sqdist d (x i)
            ((compute_centroids d k n x
              (fun i => (calculate_distances sqdist d k x c i).2)).2
              ((calculate_distances sqdist d k x c i).2)) :=
          objective_min_le sqdist d k n x _ hk
            (fun i => (calculate_distances sqdist d k x c i).2) ha
      _ ≤ ∑ i ∈ Finset.range n, sqdist d (x i)
            (c ((calculate_distances sqdist d k x c i).2)) :=
          sum_dist_to_mean_le d k n x c
            (fun i => (calculate_distances sqdist d k x c i).2) ha
      _ = objective n (calculate_distances sqdist d k x c) :=
          (objective_eq_sum_assigned sqdist d k n x c hk).symm

/-- Witness for C7_monotone_under_sq_metric: d = 1, k = 1, two training
vectors 0 and 2, previous centroid row constantly 5. -/
theorem C7_monotone_under_sq_metric_witness :
    objective 2 (calculate_distances sqdist 1 1 (fun i _ => if i = 0 then 0 else 2)
      (compute_centroids 1 1 2 (fun i _ => if i = 0 then 0 else 2)
        (fun i => (calculate_distances sqdist 1 1
          (fun i' _ => if i' = 0 then 0 else 2) (fun _ _ => 5) i).2)).2)
    ≤ objective 2 (calculate_distances sqdist 1 1
        (fun i _ => if i = 0 then 0 else 2) (fun _ _ => 5)) :=
  (C7_monotone_under_sq_metric 1 1 2 (fun i _ => if i = 0 then 0 else 2)
    (fun _ _ => 5) (fun _ => 0) 1 (by norm_num)
    (by intro ci hci; interval_cases ci; decide!)).2

/-- When every candidate's acceptance probability is below every draw, the
donor loop never accepts: it cycles through the residues mod k for as long as
the C loop at clustering.cpp lines 139-146 runs. -/
theorem findDonor_none_of_all_reject (k n : ℕ) (h : ℕ → ℚ) (rngs : ℕ → ℚ)
    (hrej : ∀ t cj, cj < k → ¬ (rngs t < (h cj - 1) / ((n - k : ℕ) : ℚ))) :
    ∀ fuel t cj, cj < k → findDonor k n h rngs t cj fuel = none := by
  intro fuel
  induction fuel with
  | zero => intro t cj _; rfl
  | succ f ih =>
    intro t cj hcj
    rw [findDonor, if_neg (hrej t cj hcj)]
    exact ih (t + 1) ((cj + 1) % k) (Nat.mod_lt _ (by omega))

/-- If the repair loop reaches an empty slot whose every donor candidate is
rejected forever while all other slots on its list are populated, it never
returns. -/
theorem splitLoop_none_stuck (k n : ℕ) (rngs : ℕ → ℚ) (fuel : ℕ) :
    ∀ (l : List ℕ) (st : SplitState) (ci : ℕ), ci ∈ l → st.hassign ci = 0 →
      (∀ c ∈ l, c ≠ ci → st.hassign c ≠ 0) →
      (∀ t cj, cj < k → ¬ (rngs t < (st.hassign cj - 1) / ((n - k : ℕ) : ℚ))) →
      0 < k →
      splitLoop k n rngs fuel l st = none := by
  intro l
  induction l with
  | nil => intro st ci hmem; exact absurd hmem (List.not_mem_nil ci)
  | cons c0 rest ih =>
    intro st ci hmem hz hothers hrej hk
    rw [splitLoop]
    by_cases hc0 : c0 = ci
    · subst hc0
      rw [if_pos hz,
        findDonor_none_of_all_reject k n st.hassign rngs hrej fuel st.t 0 hk]
    · have hne0 : st.hassign c0 ≠ 0 :=
        hothers c0 (List.mem_cons_self c0 rest) hc0
      rw [if_neg hne0]
      have hmem' : ci ∈ rest := by
        rcases List.mem_cons.mp hmem with hc | hc
        · exact absurd hc.symm hc0
        · exact hc
      exact ih st ci hmem' hz
        (fun c hc hne => hothers c (List.mem_cons_of_mem c0 hc) hne) hrej hk

/-- A k-means iteration whose first recomputation leads into a non-returning
repair never returns (the break test never fires on the first pass, since
prev_obj is the initial HUGE_VAL). -/
theorem kmeansLoop_none_of_first_split_none
    (distf : ℕ → (ℕ → ℚ) → (ℕ → ℚ) → ℚ) (d k nx : ℕ) (x : ℕ → ℕ → ℚ)
    (rngs : ℕ → ℚ) (fuel i : ℕ) (c0 : ℕ → ℕ → ℚ)
    (hs : split_clusters d k nx
        (compute_centroids d k nx x
          fun i' => (calculate_distances distf d k x c0 i').2).1
        (compute_centroids d k nx x
          fun i' => (calculate_distances distf d k x c0 i').2).2
        rngs fuel = none) :
    kmeansLoop distf d k nx x rngs fuel (i + 1) none c0 = none := by
  simp only [kmeansLoop]
  rw [hs]
  simp

/-- Counterexample to claim C7 as stated: with the Manhattan metric (a
conforming realization of the distance collaborator) on 78 one-dimensional
points (51 at 0, 26 at 3, one at 100), initial centroids 0 and 100, the first
recomputation moves centroid 0 to the cluster mean 78/77, and the objective
computed immediately after that pass rises from 78 to 7956/77 ≈ 103.3: the
sequence of objective values of this run is not non-increasing. -/
theorem C7_cex :
    (pq_train TrainType.TT_DEFAULT ⟨1, 1⟩ 78 xC7 coC7 1).objs = [78, 7956 / 77] ∧
    ¬ List.Chain' (fun a b : ℚ => b ≤ a)
        (pq_train TrainType.TT_DEFAULT ⟨1, 1⟩ 78 xC7 coC7 1).objs := by
  have h : (pq_train TrainType.TT_DEFAULT ⟨1, 1⟩ 78 xC7 coC7 1).objs =
      [78, 7956 / 77] := by decide!
  refine ⟨h, ?_⟩
  rw [h]
  intro hch
  rw [List.chain'_cons] at hch
  have hle : (7956 : ℚ) / 77 ≤ 78 := hch.1
  norm_num at hle

/-- Claim C5: whenever split_clusters returns, given n ≥ k, a nonnegative
entering histogram and nonnegative random draws (the rand_float contract),
every centroid index below k leaves with strictly positive population: every
empty centroid was repaired from a donor with population above 1 and received
half of it, and no donor was drained to zero. -/
theorem C5_split_repairs_all (d k n : ℕ) (h : ℕ → ℚ) (c : ℕ → ℕ → ℚ)
    (rngs : ℕ → ℚ) (fuel : ℕ)
    (hn : k ≤ n) (hr : ∀ t, 0 ≤ rngs t) (hnn : ∀ i, i < k → 0 ≤ h i)
    (r : (ℕ → ℚ) × (ℕ → ℕ → ℚ) × ℕ)
    (hsome : split_clusters d k n h c rngs fuel = some r) :
    ∀ i, i < k → 0 < r.1 i := by
  intro i hi
  unfold split_clusters at hsome
  cases hsl : splitLoop k n rngs fuel (List.range k) ⟨h, c, 0, 0⟩ with
  | none => rw [hsl] at hsome; cases hsome
  | some st' =>
    rw [hsl] at hsome
    have hr1 : r.1 = st'.hassign := by
      have : (some (st'.hassign, st'.cent, st'.nsplit) :
          Option ((ℕ → ℚ) × (ℕ → ℕ → ℚ) × ℕ)) = some r := hsome
      injection this with hv
      rw [← hv]
    rw [hr1]
    exact splitLoop_some_pos k n rngs fuel hr (List.range k) ⟨h, c, 0, 0⟩ st'
      (fun ci hc => List.mem_range.mp hc) hnn
      (fun i' hi' hnotin => absurd (List.mem_range.mpr hi') hnotin) hsl i hi

/-- One repair rewrites the histogram only at the repaired slot and the donor,
and the two new values sum to the donor's old population, so the total over
the first k entries is unchanged (the repaired slot held 0). -/
theorem splitLoop_some_sum (k n : ℕ) (rngs : ℕ → ℚ) (fuel : ℕ)
    (hr : ∀ t, 0 ≤ rngs t) :
    ∀ (l : List ℕ) (st st' : SplitState), (∀ ci ∈ l, ci < k) →
      splitLoop k n rngs fuel l st = some st' →
      ∑ i ∈ Finset.range k, st'.hassign i = ∑ i ∈ Finset.range k, st.hassign i := by
  intro l
  induction l with
  | nil =>
    intro st st' _ heq
    have hst : st = st' := by
      have : some st = some st' := heq
      injection this
    rw [hst]
  | cons ci rest ih =>
    intro st st' hl heq
    have hcik : ci < k := hl ci (List.mem_cons_self ci rest)
    rw [splitLoop] at heq
    by_cases hz : st.hassign ci = 0
    · rw [if_pos hz] at heq
      cases hfd : findDonor k n st.hassign rngs st.t 0 fuel with
      | none => rw [hfd] at heq; cases heq
      | some p =>
        obtain ⟨cj, t'⟩ := p
        rw [hfd] at heq
        obtain ⟨hcjk, hcj1⟩ :=
          findDonor_some_spec k n st.hassign rngs hr fuel st.t 0 cj t'
            (by omega) hfd
        have hne : cj ≠ ci := fun hcc => by rw [hcc, hz] at hcj1; linarith
        have hstep := ih _ st' (fun c hc => hl c (List.mem_cons_of_mem ci hc)) heq
        rw [hstep]
        show ∑ i ∈ Finset.range k,
            Function.update (Function.update st.hassign ci (st.hassign cj / 2)) cj
              (Function.update st.hassign ci (st.hassign cj / 2) cj -
                Function.update st.hassign ci (st.hassign cj / 2) ci) i =
          ∑ i ∈ Finset.range k, st.hassign i
        have hform : ∀ i,
            Function.update (Function.update st.hassign ci (st.hassign cj / 2)) cj
              (Function.update st.hassign ci (st.hassign cj / 2) cj -
                Function.update st.hassign ci (st.hassign cj / 2) ci) i =
            Function.update (Function.update st.hassign ci (st.hassign cj / 2)) cj
              (st.hassign cj / 2) i := by
          intro i
          rw [upd2_apply st.hassign ci cj hne i, Function.update_apply,
            Function.update_apply]
        rw [Finset.sum_congr rfl fun i _ => hform i]
        have hcjmem : cj ∈ Finset.range k := Finset.mem_range.mpr hcjk
        have hcimem : ci ∈ Finset.range k \ {cj} := by
          rw [Finset.mem_sdiff, Finset.mem_singleton]
          exact ⟨Finset.mem_range.mpr hcik, fun hc => hne hc.symm⟩
        rw [Finset.sum_update_of_mem hcjmem, Finset.sum_update_of_mem hcimem]
        rw [Finset.sum_eq_sum_diff_singleton_add hcjmem st.hassign,
          Finset.sum_eq_sum_diff_singleton_add hcimem st.hassign]
        rw [hz]
        ring
    · rw [if_neg hz] at heq
      exact ih st st' (fun c hc => hl c (List.mem_cons_of_mem ci hc)) heq

/-- Claim C9: given n ≥ k and nonnegative random draws, every completed
split_clusters call preserves the total of the population histogram over the
k centroids: each repair moves half of the donor's population to the repaired
slot and keeps the other half, so the entries still sum to the number of
assigned training vectors. -/
theorem C9_split_preserves_total (d k n : ℕ) (h : ℕ → ℚ) (c : ℕ → ℕ → ℚ)
    (rngs : ℕ → ℚ) (fuel : ℕ)
    (hn : k ≤ n) (hr : ∀ t, 0 ≤ rngs t)
    (r : (ℕ → ℚ) × (ℕ → ℕ → ℚ) × ℕ)
    (hsome : split_clusters d k n h c rngs fuel = some r) :
    ∑ i ∈ Finset.range k, r.1 i = ∑ i ∈ Finset.range k, h i := by
  unfold split_clusters at hsome
  cases hsl : splitLoop k n rngs fuel (List.range k) ⟨h, c, 0, 0⟩ with
  | none => rw [hsl] at hsome; cases hsome
  | some st' =>
    rw [hsl] at hsome
    have hr1 : r.1 = st'.hassign := by
      have : (some (st'.hassign, st'.cent, st'.nsplit) :
          Option ((ℕ → ℚ) × (ℕ → ℕ → ℚ) × ℕ)) = some r := hsome
      injection this with hv
      rw [← hv]
    rw [hr1]
    exact splitLoop_some_sum k n rngs fuel hr (List.range k) ⟨h, c, 0, 0⟩ st'
      (fun ci hc => List.mem_range.mp hc) hsl

/-- Witness for C9_split_preserves_total: k = 2, n = 5, histogram (5, 0), zero
draw stream; the repaired histogram (5/2, 5/2) still sums to 5. -/
theorem C9_split_preserves_total_witness :
    ∑ i ∈ Finset.range 2,
      ((split_clusters 1 2 5 (fun i => if i = 0 then 5 else 0) (fun _ _ => 0)
        (fun _ => 0) 1).get (by decide!)).1 i =
    ∑ i ∈ Finset.range 2, (fun i => if i = 0 then (5 : ℚ) else 0) i :=
  C9_split_preserves_total 1 2 5 (fun i => if i = 0 then 5 else 0) (fun _ _ => 0)
    (fun _ => 0) 1 (by norm_num) (fun t => le_refl 0)
    ((split_clusters 1 2 5 (fun i => if i = 0 then 5 else 0) (fun _ _ => 0)
      (fun _ => 0) 1).get (by decide!))
    (Option.some_get (by decide!)).symm

/-- Witness for C5_split_repairs_all: k = 2, n = 3, histogram (3, 0), zero
draw stream; the empty slot 1 ends with population 3/2 > 0. -/
theorem C5_split_repairs_all_witness :
    0 < ((split_clusters 1 2 3 (fun i => if i = 0 then 3 else 0) (fun _ _ => 0)
      (fun _ => 0) 1).get (by decide!)).1 1 :=
  C5_split_repairs_all 1 2 3 (fun i => if i = 0 then 3 else 0) (fun _ _ => 0)
    (fun _ => 0) 1 (by norm_num) (fun t => le_refl 0)
    (fun i _ => by by_cases h : i = 0 <;> simp [h])
    ((split_clusters 1 2 3 (fun i => if i = 0 then 3 else 0) (fun _ _ => 0)
      (fun _ => 0) 1).get (by decide!))
    (Option.some_get (by decide!)).symm 1 (by norm_num)

/-- Counterexample to claim C3 as stated: at d = 1, bits = 2 (k = 4) with 156
training vectors (52 each at 0, 10, 20), the default initialization picks the
rows 0, 10, 20, 0, so after the first assignment pass the histogram is
(52, 52, 52, 0); with the contract-conforming constant rand_float stream 9/10
every donor's acceptance probability 51/152 (or below 0) is rejected forever,
so the repair loop never accepts, pq_train never returns, and in particular it
does not report success although nx = 156 = 39 * k is not below the low-data
threshold. -/
theorem C3_cex :
    pq_train_diverges TrainType.TT_DEFAULT ⟨1, 2⟩ 156 xC3 coC3 ∧
    ¬ (156 < 2 ^ (2 : ℕ) * min_points_per_centroid) := by
  have h0 : (compute_centroids 1 4 156 xC3 fun i' =>
      (calculate_distances coC3.distf 1 4 xC3
        (initCentroids TrainType.TT_DEFAULT ⟨1, 2⟩ 156 xC3 coC3) i').2).1 0 = 52 := by
    decide!
  have h1 : (compute_centroids 1 4 156 xC3 fun i' =>
      (calculate_distances coC3.distf 1 4 xC3
        (initCentroids TrainType.TT_DEFAULT ⟨1, 2⟩ 156 xC3 coC3) i').2).1 1 = 52 := by
    decide!
  have h2 : (compute_centroids 1 4 156 xC3 fun i' =>
      (calculate_distances coC3.distf 1 4 xC3
        (initCentroids TrainType.TT_DEFAULT ⟨1, 2⟩ 156 xC3 coC3) i').2).1 2 = 52 := by
    decide!
  have h3 : (compute_centroids 1 4 156 xC3 fun i' =>
      (calculate_distances coC3.distf 1 4 xC3
        (initCentroids TrainType.TT_DEFAULT ⟨1, 2⟩ 156 xC3 coC3) i').2).1 3 = 0 := by
    decide!
  have hrej : ∀ t cj, cj < 4 → ¬ (coC3.rngs t <
      ((compute_centroids 1 4 156 xC3 fun i' =>
        (calculate_distances coC3.distf 1 4 xC3
          (initCentroids TrainType.TT_DEFAULT ⟨1, 2⟩ 156 xC3 coC3) i').2).1 cj - 1) /
        ((156 - 4 : ℕ) : ℚ)) := by
    intro t cj hcj
    have hr : coC3.rngs t = 9 / 10 := rfl
    rw [hr]
    interval_cases cj
    · rw [h0]; norm_num
    · rw [h1]; norm_num
    · rw [h2]; norm_num
    · rw [h3]; norm_num
  have hothers : ∀ c ∈ List.range 4, c ≠ 3 →
      (compute_centroids 1 4 156 xC3 fun i' =>
        (calculate_distances coC3.distf 1 4 xC3
          (initCentroids TrainType.TT_DEFAULT ⟨1, 2⟩ 156 xC3 coC3) i').2).1 c ≠ 0 := by
    intro c hc hne
    have hclt : c < 4 := List.mem_range.mp hc
    interval_cases c
    · rw [h0]; norm_num
    · rw [h1]; norm_num
    · rw [h2]; norm_num
    · exact absurd rfl hne
  have hsplit : ∀ fuel, split_clusters 1 4 156
      (compute_centroids 1 4 156 xC3 fun i' =>
        (calculate_distances coC3.distf 1 4 xC3
          (initCentroids TrainType.TT_DEFAULT ⟨1, 2⟩ 156 xC3 coC3) i').2).1
      (compute_centroids 1 4 156 xC3 fun i' =>
        (calculate_distances coC3.distf 1 4 xC3
          (initCentroids TrainType.TT_DEFAULT ⟨1, 2⟩ 156 xC3 coC3) i').2).2
      coC3.rngs fuel = none := by
    intro fuel
    unfold split_clusters
    rw [splitLoop_none_stuck 4 156 coC3.rngs fuel (List.range 4)
      ⟨(compute_centroids 1 4 156 xC3 fun i' =>
          (calculate_distances coC3.distf 1 4 xC3
            (initCentroids TrainType.TT_DEFAULT ⟨1, 2⟩ 156 xC3 coC3) i').2).1,
        (compute_centroids 1 4 156 xC3 fun i' =>
          (calculate_distances coC3.distf 1 4 xC3
            (initCentroids TrainType.TT_DEFAULT ⟨1, 2⟩ 156 xC3 coC3) i').2).2, 0, 0⟩ 3
      (List.mem_range.mpr (by norm_num)) h3 hothers hrej (by norm_num)]
    rfl
  constructor
  · intro fuel
    have hred : (pq_train TrainType.TT_DEFAULT ⟨1, 2⟩ 156 xC3 coC3 fuel).ok =
        (kmeansLoop coC3.distf 1 4 156 xC3 coC3.rngs fuel max_iterations none
          (initCentroids TrainType.TT_DEFAULT ⟨1, 2⟩ 156 xC3 coC3)).map
          (fun _ => true) := rfl
    rw [hred]
    have hnone : kmeansLoop coC3.distf 1 4 156 xC3 coC3.rngs fuel max_iterations none
        (initCentroids TrainType.TT_DEFAULT ⟨1, 2⟩ 156 xC3 coC3) = none :=
      kmeansLoop_none_of_first_split_none coC3.distf 1 4 156 xC3 coC3.rngs fuel 24
        (initCentroids TrainType.TT_DEFAULT ⟨1, 2⟩ 156 xC3 coC3) (hsplit fuel)
    rw [hnone]
    rfl
  · norm_num [min_points_per_centroid]
